import Mathlib

/-!
Verification of the receipt-item matching core
(`app/services/matching_service.py`, `app/services/embedding_service.py`).

Python strings are modelled as `String`/`List Char`; the regular-expression
substitutions of `_normalize`, the token split of `_expand_tokens` and the
alphabetic tokenizer of `_suggestions` are embedded as executable character
scanners with the same leftmost, greedy semantics (restricted to ASCII).
Python's stable `list.sort` and numpy's descending argsort are modelled with
`List.insertionSort`, which is stable.  The sentence-transformer encoder is
external to the repository; it is modelled as an abstract similarity function
`encodeSim : String → String → ℚ` carried by the embedding service.
-/

/-- ASCII model of Python's regex `\s` / `str.strip` whitespace class. -/
def isSpaceC (c : Char) : Bool :=
  c = ' ' || c = '\t' || c = '\n' || c = '\r' || c = '\x0b' || c = '\x0c'

/-- ASCII model of Python's regex word character class `\w` (for `\b`). -/
def isWordC (c : Char) : Bool :=
  c.isAlphanum || c = '_'

/-- Characters admitted by the price-suffix class `[\d\.,]`. -/
def isPriceC (c : Char) : Bool :=
  c.isDigit || c = '.' || c = ','

/-- Python `str.strip()`: drop whitespace from both ends. -/
def stripL (s : List Char) : List Char :=
  (((s.dropWhile isSpaceC).reverse.dropWhile isSpaceC)).reverse

/-- The unit alternatives of the quantity regex, in the source's order:
`(lb|lbs|oz|ct|pk|pkg|ea)`. -/
def unitAlts : List (List Char) :=
  [['l','b'], ['l','b','s'], ['o','z'], ['c','t'], ['p','k'], ['p','k','g'], ['e','a']]

/-- Case-insensitive literal match of `alt` at the head of `s`; on success
returns the remainder.  Models one alternative of the unit group under
`re.I`. -/
def matchAltCI (alt : List Char) (s : List Char) : Option (List Char) :=
  match alt, s with
  | [], rest => some rest
  | _ :: _, [] => none
  | a :: as, c :: cs => if c.toLower = a then matchAltCI as cs else none

/-- Word boundary `\b` after a word character: the next character must be
absent or a non-word character. -/
def boundaryAfter (s : List Char) : Bool :=
  match s with
  | [] => true
  | c :: _ => !isWordC c

/-- One attempt of the quantity/unit regex `\b\d+\s*(lb|lbs|oz|ct|pk|pkg|ea)\b`
(flags `re.I`) at the current position.  `prevWord` records whether the
preceding character is a word character (for the leading `\b`).  On success
returns the remainder of the string after the match. -/
def tryUnitMatch (prevWord : Bool) (s : List Char) : Option (List Char) :=
  if prevWord then none
  else
    let digits := s.takeWhile (·.isDigit)
    if digits.isEmpty then none
    else
      let rest1 := (s.drop digits.length).dropWhile isSpaceC
      (unitAlts.filterMap (fun alt =>
        match matchAltCI alt rest1 with
        | some rest2 => if boundaryAfter rest2 then some rest2 else none
        | none => none)).head?

/-- Scanner for `re.sub(r"\b\d+\s*(lb|lbs|oz|ct|pk|pkg|ea)\b", "", text, flags=re.I)`:
leftmost matches are removed and scanning resumes after each match.  `fuel`
is an upper bound on the number of steps (the string length suffices, since
every step consumes at least one character). -/
def subUnitsGo : Nat → Bool → List Char → List Char
  | 0, _, s => s
  | _ + 1, _, [] => []
  | fuel + 1, prevWord, c :: cs =>
    match tryUnitMatch prevWord (c :: cs) with
    | some rest => subUnitsGo fuel true rest
    | none => c :: subUnitsGo fuel (isWordC c) cs

def subUnits (s : List Char) : List Char :=
  subUnitsGo s.length false s

/-- The optional leading `\$?` of the price regex: consume a dollar sign if
present. -/
def dropDollar (s : List Char) : List Char :=
  match s with
  | '$' :: rest => rest
  | _ => s

/-- Does the trailing-price regex `\$?\d+[\d\.,]*$` match the whole of `s`
(up to an optional final newline, which Python's `$` permits)? -/
def matchPriceSuffix (s : List Char) : Bool :=
  let s1 := dropDollar s
  let digits := s1.takeWhile (·.isDigit)
  if digits.isEmpty then false
  else
    let rest := (s1.drop digits.length).dropWhile isPriceC
    rest = [] || rest = ['\n']

/-- The remainder left by a successful price-suffix match (`[]` or `['\n']`). -/
def priceRest (s : List Char) : List Char :=
  let s1 := dropDollar s
  (s1.drop (s1.takeWhile (·.isDigit)).length).dropWhile isPriceC

/-- Scanner for `re.sub(r"\$?\d+[\d\.,]*$", "", text)`: the leftmost match,
anchored at the end of the string, is removed. -/
def subPrice : List Char → List Char
  | [] => []
  | c :: cs =>
    if matchPriceSuffix (c :: cs) then priceRest (c :: cs)
    else c :: subPrice cs

/-- Scanner for `re.sub(r"\s+", " ", text)`: each maximal whitespace run is
replaced by a single space.  The flag records whether the scanner is inside
a run whose space has already been emitted. -/
def collapseWsGo : Bool → List Char → List Char
  | _, [] => []
  | inRun, c :: cs =>
    if isSpaceC c then
      if inRun then collapseWsGo true cs
      else ' ' :: collapseWsGo true cs
    else c :: collapseWsGo false cs

def collapseWs (s : List Char) : List Char :=
  collapseWsGo false s

/-- `MatchingService._normalize`, on character lists. -/
def normalizeL (s : List Char) : List Char :=
  let t0 := stripL s
  let t1 := subUnits t0
  let t2 := stripL (subPrice t1)
  collapseWs t2

/-- Scanner for `re.split(r"\s+|[-_/]", text)`: a maximal whitespace run or a
single `-`, `_`, `/` separates tokens; empty tokens are produced between
adjacent single-character separators, exactly as in Python. -/
def splitTokensGo : Bool → List Char → List Char → List (List Char)
  | _, acc, [] => [acc.reverse]
  | wsRun, acc, c :: cs =>
    if isSpaceC c then
      if wsRun then splitTokensGo true acc cs
      else acc.reverse :: splitTokensGo true [] cs
    else if c = '-' || c = '_' || c = '/' then
      acc.reverse :: splitTokensGo false [] cs
    else splitTokensGo false (c :: acc) cs

def splitTokens (s : List Char) : List (List Char) :=
  splitTokensGo false [] s

/-- ASCII model of Python `str.lower()`. -/
def lowerL (s : List Char) : List Char :=
  s.map Char.toLower

namespace MatchingService

/-- The abbreviation dictionary `self.token_map` built in `__init__`. -/
def token_map : List (String × String) :=
  [("grn", "green"), ("grn.", "green"), ("bell", "bell"), ("ppr", "pepper"),
   ("pep", "pepper"), ("onion", "onion"), ("ylw", "yellow"), ("yell", "yellow"),
   ("mnch", "bunch"), ("blubry", "blueberry"), ("bluberries", "blueberries")]

/-- `self.token_map.get(t, t)`. -/
def expandTok (t : String) : String :=
  (token_map.lookup t).getD t

/-- `MatchingService._normalize`. -/
def normalize (text : String) : String :=
  ⟨normalizeL text.data⟩

/-- `MatchingService._expand_tokens`. -/
def expand_tokens (text : String) : String :=
  let tokens := splitTokens (lowerL text.data)
  let out := (tokens.filter (fun t => !t.isEmpty)).map (fun t => expandTok ⟨t⟩)
  ⟨stripL (String.intercalate " " out).data⟩

end MatchingService

/-- Python's `in` on strings: substring containment. -/
def containsSub (s pat : List Char) : Bool :=
  match s with
  | [] => pat.isEmpty
  | _ :: tl => pat.isPrefixOf s || containsSub tl pat

namespace MatchingService

/-- `MatchingService._confident_rules`. -/
def confident_rules (_norm_text expanded : String) : Option String :=
  if containsSub expanded.data "onion".data then some "Onion, fresh"
  else if (["green", "bell", "pepper"].all fun k => containsSub expanded.data k.data) then
    some "Green Bell Pepper"
  else none

end MatchingService

/-- Descending comparison on suggestion scores, used to model the stable
`scores.sort(key=lambda x: x[1], reverse=True)`. -/
def sugOrder : (String × Nat) → (String × Nat) → Prop :=
  fun a b => b.2 ≤ a.2

instance : DecidableRel sugOrder :=
  fun a b => inferInstanceAs (Decidable (b.2 ≤ a.2))

/-- Tokenizer `re.findall(r"[a-z]+", s)`: maximal runs of lowercase letters. -/
def alphaRunsGo : List Char → List Char → List (List Char)
  | acc, [] => if acc.isEmpty then [] else [acc.reverse]
  | acc, c :: cs =>
    if 'a' ≤ c && c ≤ 'z' then alphaRunsGo (c :: acc) cs
    else if acc.isEmpty then alphaRunsGo [] cs
    else acc.reverse :: alphaRunsGo [] cs

def alphaRuns (s : List Char) : List (List Char) :=
  alphaRunsGo [] s

/-- The overlap score of `_suggestions`:
`len(set(re.findall("[a-z]+", name.lower())) & set(re.findall("[a-z]+", expanded)))`. -/
def overlapScore (name expanded : String) : Nat :=
  let nameToks := (alphaRuns (lowerL name.data)).dedup
  let queryToks := (alphaRuns expanded.data).dedup
  (nameToks.filter (fun t => queryToks.contains t)).length

/-- Comparison on `(String × ℚ)` pairs modelling `np.argsort(-scores)`
(descending by similarity score). -/
def simOrder : (String × ℚ) → (String × ℚ) → Prop :=
  fun a b => b.2 ≤ a.2

instance : DecidableRel simOrder :=
  fun a b => inferInstanceAs (Decidable (b.2 ≤ a.2))

/-- First-occurrence-preserving deduplication, `list(dict.fromkeys(names))`. -/
def dedupFirstGo (seen : List String) : List String → List String
  | [] => []
  | x :: xs =>
    if x ∈ seen then dedupFirstGo seen xs
    else x :: dedupFirstGo (x :: seen) xs

def dedupFirst (names : List String) : List String :=
  dedupFirstGo [] names

/-- `EmbeddingService` (`app/services/embedding_service.py`).  The neural
encoder is external; `encodeSim q n` abstracts the dot product between the
encodings of query `q` and catalog name `n` (deterministic for a fixed
model).  `canonical_embs` records whether `self.canonical_embs is not None`. -/
structure EmbeddingService where
  encodeSim : String → String → ℚ
  canonical_names : List String := []
  canonical_embs : Bool := false

namespace EmbeddingService

/-- `EmbeddingService.load_canonical`. -/
def load_canonical (e : EmbeddingService) (names : List String) : EmbeddingService :=
  { e with canonical_names := dedupFirst names, canonical_embs := true }

/-- `EmbeddingService.top_k`: scores every catalog name against the query and
returns the first `k` entries in descending score order. -/
def top_k (e : EmbeddingService) (text : String) (k : Nat) : List (String × ℚ) :=
  if !e.canonical_embs || e.canonical_names.isEmpty then []
  else
    let pairs := e.canonical_names.map (fun n => (n, e.encodeSim text n))
    (pairs.insertionSort simOrder).take k

end EmbeddingService

/-- The tagged result of `MatchingService.match_item`: the source returns a
bare canonical name on success and a `(None, suggestions)` pair otherwise. -/
inductive MatchResult
  | matched (name : String)
  | unmatched (suggestions : List String)
  deriving DecidableEq

/-- `MatchingService` state after `__init__`. -/
structure MatchingService where
  embedding : Option EmbeddingService
  threshold : ℚ
  canonical_names : List String

/-- The hard-coded default catalog of `MatchingService.__init__`. -/
def defaultCatalog : List String :=
  ["Onion, fresh", "Green Bell Pepper", "Blueberries", "Blackberries",
   "Milk (pasteurized)", "Bread, commercial", "Chicken, raw", "Apples",
   "Bananas", "Carrots", "Potatoes", "Tomatoes"]

namespace MatchingService

/-- `MatchingService.__init__`: `shelf_life` stands for the optional
`ShelfLifeService` collaborator, abstracted to the name list returned by its
`get_all_item_names()`. -/
def init (embedding : Option EmbeddingService) (shelf_life : Option (List String))
    (threshold : ℚ) : MatchingService :=
  let names0 := shelf_life.getD []
  let names := if names0.isEmpty then defaultCatalog else names0
  { embedding := embedding.map (fun e => e.load_canonical names)
    threshold := threshold
    canonical_names := names }

/-- `MatchingService._suggestions`: lexical-overlap ranking with Python's
stable descending sort, and the `or self.canonical_names[:top_n]` fallback. -/
def suggestions (m : MatchingService) (expanded : String) (top_n : Nat := 3) :
    List String :=
  let scores := m.canonical_names.map (fun name => (name, overlapScore name expanded))
  let res := ((scores.insertionSort sugOrder).take top_n).map Prod.fst
  if res.isEmpty then m.canonical_names.take top_n else res

/-- The expanded query string `match_item` works on: `norm = self._normalize(item_name)`
followed by `expanded = self._expand_tokens(norm)`. -/
def expandedOf (item_name : String) : String :=
  expand_tokens (normalize item_name)

/-- `MatchingService.match_item`. -/
def match_item (m : MatchingService) (item_name : String) : MatchResult :=
  match confident_rules (normalize item_name) (expandedOf item_name) with
  | some direct => .matched direct
  | none =>
    match m.embedding with
    | some e =>
      if e.canonical_embs then
        match e.top_k (expandedOf item_name) 3 with
        | [] => .unmatched (m.suggestions (expandedOf item_name))
        | (best_name, best_score) :: rest =>
          if m.threshold ≤ best_score then .matched best_name
          else .unmatched (((best_name, best_score) :: rest).map Prod.fst)
      else .unmatched (m.suggestions (expandedOf item_name))
    | none => .unmatched (m.suggestions (expandedOf item_name))

end MatchingService


/-! ### Basic facts about the embedded operations -/

theorem mem_dedupFirstGo {x : String} :
    ∀ {l seen : List String}, x ∈ dedupFirstGo seen l → x ∈ l := by
  intro l
  induction l with
  | nil => intro seen h; simp [dedupFirstGo] at h
  | cons a as ih =>
    intro seen h
    unfold dedupFirstGo at h
    split at h
    · exact List.mem_cons_of_mem _ (ih h)
    · rcases List.mem_cons.1 h with rfl | h
      · exact List.mem_cons_self _ _
      · exact List.mem_cons_of_mem _ (ih h)

theorem mem_dedupFirst {x : String} {l : List String} (h : x ∈ dedupFirst l) : x ∈ l :=
  mem_dedupFirstGo h

theorem nodup_dedupFirstGo :
    ∀ (l seen : List String),
      (dedupFirstGo seen l).Nodup ∧ ∀ x ∈ dedupFirstGo seen l, x ∉ seen := by
  intro l
  induction l with
  | nil => intro seen; simp [dedupFirstGo]
  | cons a as ih =>
    intro seen
    unfold dedupFirstGo
    split
    · exact ⟨(ih seen).1, (ih seen).2⟩
    · rename_i ha
      refine ⟨List.nodup_cons.2 ⟨fun hmem => ?_, (ih (a :: seen)).1⟩, ?_⟩
      · exact absurd (List.mem_cons_self a seen) ((ih (a :: seen)).2 a hmem)
      · intro x hx
        rcases List.mem_cons.1 hx with rfl | hx
        · exact ha
        · exact fun hs => (ih (a :: seen)).2 x hx (List.mem_cons_of_mem _ hs)

theorem nodup_dedupFirst (l : List String) : (dedupFirst l).Nodup :=
  (nodup_dedupFirstGo l []).1

theorem map_fst_scorePairs {β : Type} (names : List String) (f : String → β) :
    (names.map fun n => (n, f n)).map Prod.fst = names := by
  induction names with
  | nil => rfl
  | cons a as ih => simp [ih]

namespace EmbeddingService

theorem top_k_length (e : EmbeddingService) (text : String) (k : Nat) :
    (e.top_k text k).length ≤ k := by
  unfold top_k
  split
  · simp
  · exact List.length_take_le _ _

theorem top_k_mem {e : EmbeddingService} {text : String} {k : Nat} {p : String × ℚ}
    (hp : p ∈ e.top_k text k) : p.1 ∈ e.canonical_names := by
  unfold top_k at hp
  split at hp
  · simp at hp
  · have h1 := List.take_subset _ _ hp
    have h2 := (List.mem_insertionSort _).1 h1
    rcases List.mem_map.1 h2 with ⟨n, hn, hEq⟩
    rw [← hEq]
    exact hn

theorem top_k_names_nodup (e : EmbeddingService) (text : String) (k : Nat)
    (h : e.canonical_names.Nodup) : ((e.top_k text k).map Prod.fst).Nodup := by
  unfold top_k
  split
  · simp
  · rw [List.map_take]
    have hperm :
        ((e.canonical_names.map fun n => (n, e.encodeSim text n)).insertionSort simOrder).map
            Prod.fst |>.Perm e.canonical_names := by
      have := (List.perm_insertionSort simOrder
        (e.canonical_names.map fun n => (n, e.encodeSim text n))).map Prod.fst
      rwa [map_fst_scorePairs] at this
    exact (List.take_sublist _ _).nodup (hperm.symm.nodup h)

theorem load_canonical_names (e : EmbeddingService) (names : List String) :
    (e.load_canonical names).canonical_names = dedupFirst names := rfl

end EmbeddingService

namespace MatchingService

theorem suggestions_length (m : MatchingService) (expanded : String) (n : Nat) :
    (m.suggestions expanded n).length ≤ n := by
  simp only [suggestions]
  split
  · exact List.length_take_le _ _
  · simp only [List.length_map]
    exact List.length_take_le n _

theorem suggestions_nodup (m : MatchingService) (expanded : String) (n : Nat)
    (h : m.canonical_names.Nodup) : (m.suggestions expanded n).Nodup := by
  simp only [suggestions]
  split
  · exact (List.take_sublist _ _).nodup h
  · rw [List.map_take]
    have hperm :
        ((m.canonical_names.map fun name => (name, overlapScore name expanded)).insertionSort
            sugOrder).map Prod.fst |>.Perm m.canonical_names := by
      have := (List.perm_insertionSort sugOrder
        (m.canonical_names.map fun name => (name, overlapScore name expanded))).map Prod.fst
      rwa [map_fst_scorePairs] at this
    exact (List.take_sublist _ _).nodup (hperm.symm.nodup h)

end MatchingService

namespace MatchingService

/-- Exhaustive case analysis of `match_item`: the override path, the
similarity path (index present and loaded) and the lexical fallback. -/
theorem match_item_cases (m : MatchingService) (input : String) :
    (∃ nm, confident_rules (normalize input) (expandedOf input) = some nm ∧
       m.match_item input = .matched nm) ∨
    (confident_rules (normalize input) (expandedOf input) = none ∧
      ∃ e, m.embedding = some e ∧ e.canonical_embs = true ∧
        ((e.top_k (expandedOf input) 3 = [] ∧
            m.match_item input = .unmatched (m.suggestions (expandedOf input) 3)) ∨
         (∃ bn bs rest, e.top_k (expandedOf input) 3 = (bn, bs) :: rest ∧
            ((m.threshold ≤ bs ∧ m.match_item input = .matched bn) ∨
             (¬ m.threshold ≤ bs ∧
                m.match_item input =
                  .unmatched (((bn, bs) :: rest).map Prod.fst)))))) ∨
    (confident_rules (normalize input) (expandedOf input) = none ∧
      (m.embedding = none ∨ ∃ e, m.embedding = some e ∧ e.canonical_embs = false) ∧
      m.match_item input = .unmatched (m.suggestions (expandedOf input) 3)) := by
  unfold match_item
  cases hcr : confident_rules (normalize input) (expandedOf input) with
  | some nm => exact Or.inl ⟨nm, rfl, rfl⟩
  | none =>
    cases hemb : m.embedding with
    | none => exact Or.inr (Or.inr ⟨rfl, Or.inl rfl, rfl⟩)
    | some e =>
      cases hce : e.canonical_embs with
      | false =>
        refine Or.inr (Or.inr ⟨rfl, Or.inr ⟨e, rfl, hce⟩, ?_⟩)
        simp [hce]
      | true =>
        cases htop : e.top_k (expandedOf input) 3 with
        | nil =>
          refine Or.inr (Or.inl ⟨rfl, e, rfl, hce, Or.inl ⟨htop, ?_⟩⟩)
          simp [hce, htop]
        | cons p rest =>
          obtain ⟨bn, bs⟩ := p
          by_cases hth : m.threshold ≤ bs
          · refine Or.inr (Or.inl ⟨rfl, e, rfl, hce,
              Or.inr ⟨bn, bs, rest, htop, Or.inl ⟨hth, ?_⟩⟩⟩)
            simp [hce, htop, hth]
          · refine Or.inr (Or.inl ⟨rfl, e, rfl, hce,
              Or.inr ⟨bn, bs, rest, htop, Or.inr ⟨hth, ?_⟩⟩⟩)
            simp [hce, htop, hth]

end MatchingService

namespace MatchingService

/-- C10: after `__init__` the canonical name list is never empty: when the
shelf-life collaborator supplies no names (or none is given), the built-in
12-item default catalog is substituted. -/
theorem init_catalog_nonempty (emb : Option EmbeddingService)
    (sl : Option (List String)) (t : ℚ) :
    (init emb sl t).canonical_names ≠ [] ∧
    (sl.getD [] = [] → (init emb sl t).canonical_names = defaultCatalog) ∧
    defaultCatalog.length = 12 := by
  refine ⟨?_, ?_, rfl⟩
  · simp only [init]
    split
    · simp [defaultCatalog]
    · rename_i hne
      simpa using hne
  · intro h
    simp only [init, h]
    rfl

/-- Witness for `init_catalog_nonempty` at a concrete construction. -/
theorem init_catalog_nonempty_holds :
    (init none none 1).canonical_names = defaultCatalog ∧
    (init none none 1).canonical_names ≠ [] :=
  ⟨(init_catalog_nonempty none none 1).2.1 rfl, (init_catalog_nonempty none none 1).1⟩

/-- C2: whenever the expanded form of the input satisfies an override
predicate, `match_item` returns that override's name, for every embedding
configuration and every threshold — the similarity and lexical paths are
never reached. -/
theorem override_precedence (emb : Option EmbeddingService) (sl : Option (List String))
    (t : ℚ) (input : String) :
    (containsSub (expandedOf input).data "onion".data = true →
       (init emb sl t).match_item input = .matched "Onion, fresh") ∧
    (containsSub (expandedOf input).data "onion".data = false →
     (["green", "bell", "pepper"].all fun k => containsSub (expandedOf input).data k.data)
        = true →
       (init emb sl t).match_item input = .matched "Green Bell Pepper") := by
  constructor
  · intro h
    unfold match_item confident_rules
    simp [h]
  · intro h1 h2
    unfold match_item confident_rules
    simp [h1, h2]

/-- Witness for `override_precedence` on the spec's two concrete scenarios. -/
theorem override_precedence_holds :
    (init none none 1).match_item "YELLOW ONION 3LB" = .matched "Onion, fresh" ∧
    (init none none 1).match_item "GRN BELL PPR" = .matched "Green Bell Pepper" :=
  ⟨(override_precedence none none 1 "YELLOW ONION 3LB").1 (by decide),
   (override_precedence none none 1 "GRN BELL PPR").2 (by decide) (by decide)⟩

/-- C9: the onion override is raw substring containment on the expanded
string, not token membership: for the input `"onionskin"` the letters
`onion` occur only inside the longer token `onionskin`, yet `match_item`
returns `Matched "Onion, fresh"`. -/
theorem onion_rule_is_substring_containment :
    containsSub (expandedOf "onionskin").data "onion".data = true ∧
    (∀ tk ∈ (splitTokens (lowerL (expandedOf "onionskin").data)).filter
        (fun tk => !tk.isEmpty), tk ≠ "onion".data) ∧
    (init none none 1).match_item "onionskin" = .matched "Onion, fresh" := by
  decide

/-- C8 counterexample: with an empty canonical catalog, `match_item` does
not return `Unmatched []` on every input — an override input still yields a
`Matched` result. -/
theorem empty_catalog_override_still_matches :
    (MatchingService.mk none 1 []).canonical_names = [] ∧
    (MatchingService.mk none 1 []).match_item "onion" = .matched "Onion, fresh" := by
  decide

/-- C8 amended: with an empty canonical catalog (and the embedding index, if
any, loaded from that catalog), every input whose expanded form triggers no
override rule yields `Unmatched []`; the empty catalog is handled as normal
input, not as an error. -/
theorem empty_catalog_unmatched (eo : Option EmbeddingService) (t : ℚ) (input : String)
    (h : confident_rules (normalize input) (expandedOf input) = none) :
    (MatchingService.mk (eo.map (fun e => e.load_canonical [])) t []).match_item input
      = .unmatched [] := by
  unfold match_item
  simp only [h]
  cases eo with
  | none => rfl
  | some e => rfl

/-- Witness for `empty_catalog_unmatched`. -/
theorem empty_catalog_unmatched_holds :
    (MatchingService.mk ((none : Option EmbeddingService).map
        (fun e => e.load_canonical [])) 1 []).match_item "zzz" = .unmatched [] :=
  empty_catalog_unmatched none 1 "zzz" (by decide)

end MatchingService

namespace MatchingService

/-- C1 counterexample: with a collaborator-supplied catalog that lacks the
override names, `match_item` returns a `Matched` name that is not a member
of the canonical catalog. -/
theorem matched_name_can_leave_catalog :
    (init none (some ["Milk"]) 1).match_item "onion" = .matched "Onion, fresh" ∧
    "Onion, fresh" ∉ (init none (some ["Milk"]) 1).canonical_names := by
  decide

/-- C1 amended: whenever the canonical catalog contains the two override
names (as the built-in default catalog does), every `Matched` result of
`match_item` is a member of the canonical catalog. -/
theorem matched_name_mem_catalog (emb : Option EmbeddingService)
    (sl : Option (List String)) (t : ℚ) (input : String) (nm : String)
    (h1 : "Onion, fresh" ∈ (init emb sl t).canonical_names)
    (h2 : "Green Bell Pepper" ∈ (init emb sl t).canonical_names)
    (h : (init emb sl t).match_item input = .matched nm) :
    nm ∈ (init emb sl t).canonical_names := by
  rcases match_item_cases (init emb sl t) input with
    ⟨nm', hcr, hres⟩ | ⟨hcr, e, hemb, hce, htop⟩ | ⟨hcr, _, hres⟩
  · rw [hres] at h
    injection h with h
    subst h
    unfold confident_rules at hcr
    split at hcr
    · cases hcr; exact h1
    · split at hcr
      · cases hcr; exact h2
      · cases hcr
  · rcases htop with ⟨_, hres⟩ | ⟨bn, bs, rest, htopEq, hbranch⟩
    · rw [hres] at h; cases h
    · rcases hbranch with ⟨_, hres⟩ | ⟨_, hres⟩
      · rw [hres] at h
        injection h with h
        subst h
        have hmem : (bn, bs) ∈ e.top_k (expandedOf input) 3 := by
          rw [htopEq]; exact List.mem_cons_self _ _
        have hbn := EmbeddingService.top_k_mem hmem
        have hinit : (init emb sl t).embedding
            = emb.map (fun e0 => e0.load_canonical ((init emb sl t).canonical_names)) := rfl
        rw [hinit] at hemb
        rcases Option.map_eq_some'.1 hemb with ⟨e0, _, hload⟩
        rw [← hload] at hbn
        exact mem_dedupFirst hbn
      · rw [hres] at h; cases h
  · rw [hres] at h; cases h

/-- Witness for `matched_name_mem_catalog` with a concrete embedding. -/
theorem matched_name_mem_catalog_holds :
    "Onion, fresh" ∈
      (init (some ⟨fun _ _ => 1, [], false⟩) none 1).canonical_names :=
  matched_name_mem_catalog (some ⟨fun _ _ => 1, [], false⟩) none 1 "zzz" "Onion, fresh"
    (by decide) (by decide) (by decide)

/-- C5 counterexample: a duplicate catalog supplied by the collaborator
produces duplicate names in the suggestion list on the lexical path. -/
theorem unmatched_suggestions_can_duplicate :
    (init none (some ["Milk", "Milk", "Bread"]) 1).match_item "milk"
      = .unmatched ["Milk", "Milk", "Bread"] ∧
    ¬ (["Milk", "Milk", "Bread"] : List String).Nodup := by
  decide

/-- C5 amended: every `Unmatched` suggestion list has length at most
`top_k = 3`; it is duplicate-free whenever the constructed catalog is
duplicate-free, and on the similarity path — the embedding index is present,
loaded, and returned a non-empty top list — it is duplicate-free
unconditionally, because the embedding index deduplicates its catalog. -/
theorem suggestion_bound (emb : Option EmbeddingService) (sl : Option (List String))
    (t : ℚ) (input : String) (sugg : List String)
    (h : (init emb sl t).match_item input = .unmatched sugg) :
    sugg.length ≤ 3 ∧ ((init emb sl t).canonical_names.Nodup → sugg.Nodup) ∧
    (∀ e, (init emb sl t).embedding = some e → e.canonical_embs = true →
       e.top_k (expandedOf input) 3 ≠ [] → sugg.Nodup) := by
  rcases match_item_cases (init emb sl t) input with
    ⟨nm', _, hres⟩ | ⟨_, e, hemb, _, htop⟩ | ⟨_, hnone, hres⟩
  · rw [hres] at h; cases h
  · rcases htop with ⟨htopnil, hres⟩ | ⟨bn, bs, rest, htopEq, hbranch⟩
    · rw [hres] at h
      injection h with h
      subst h
      refine ⟨suggestions_length _ _ _, fun hn => suggestions_nodup _ _ _ hn, ?_⟩
      intro e' he' _ htopne
      rw [hemb] at he'
      injection he' with he'
      subst he'
      exact absurd htopnil htopne
    · rcases hbranch with ⟨_, hres⟩ | ⟨_, hres⟩
      · rw [hres] at h; cases h
      · rw [hres] at h
        injection h with h
        subst h
        have hnodup : (((bn, bs) :: rest).map Prod.fst).Nodup := by
          rw [← htopEq]
          apply EmbeddingService.top_k_names_nodup
          have hinit : (init emb sl t).embedding
              = emb.map (fun e0 => e0.load_canonical ((init emb sl t).canonical_names)) := rfl
          rw [hinit] at hemb
          rcases Option.map_eq_some'.1 hemb with ⟨e0, _, hload⟩
          rw [← hload]
          exact nodup_dedupFirst _
        refine ⟨?_, fun _ => hnodup, fun _ _ _ _ => hnodup⟩
        rw [← htopEq]
        simp only [List.length_map]
        exact EmbeddingService.top_k_length _ _ _
  · rw [hres] at h
    injection h with h
    subst h
    refine ⟨suggestions_length _ _ _, fun hn => suggestions_nodup _ _ _ hn, ?_⟩
    intro e' he' hce' _
    rcases hnone with hn2 | ⟨e2, he2, hce2⟩
    · rw [hn2] at he'; cases he'
    · rw [he2] at he'
      injection he' with he'
      subst he'
      rw [hce2] at hce'
      cases hce'

/-- Witness for `suggestion_bound`: a duplicate catalog on the similarity
path still yields duplicate-free suggestions of length at most 3. -/
theorem suggestion_bound_holds :
    (["Milk", "Bread"] : List String).length ≤ 3 ∧
    (["Milk", "Bread"] : List String).Nodup := by
  have hsb := suggestion_bound (some ⟨fun _ _ => 0, [], false⟩)
    (some ["Milk", "Milk", "Bread"]) 1 "zzz" ["Milk", "Bread"] (by decide)
  exact ⟨hsb.1, hsb.2.2
    ((⟨fun _ _ => 0, [], false⟩ : EmbeddingService).load_canonical
      ["Milk", "Milk", "Bread"]) rfl rfl (by decide)⟩

/-- Raising or lowering only the threshold: the override branch and the
suggestion computations do not read it, and the similarity branch reads it
only in the comparison against the best score. -/
theorem match_item_threshold_mono (e : Option EmbeddingService) (N : List String)
    (t t' : ℚ) (hle : t' ≤ t) (input : String) :
    (∀ nm, (MatchingService.mk e t N).match_item input = .matched nm →
       (MatchingService.mk e t' N).match_item input = .matched nm) ∧
    (∀ sugg, (MatchingService.mk e t' N).match_item input = .unmatched sugg →
       (MatchingService.mk e t N).match_item input = .unmatched sugg) := by
  unfold match_item
  cases hcr : confident_rules (normalize input) (expandedOf input) with
  | some d => exact ⟨fun nm h => h, fun sugg h => h⟩
  | none =>
    cases e with
    | none => exact ⟨fun nm h => h, fun sugg h => h⟩
    | some ee =>
      dsimp only
      cases hce : ee.canonical_embs with
      | false => simp only [Bool.false_eq_true, if_false]; exact ⟨fun nm h => h, fun sugg h => h⟩
      | true =>
        simp only [if_true]
        cases htop : ee.top_k (expandedOf input) 3 with
        | nil => exact ⟨fun nm h => h, fun sugg h => h⟩
        | cons p rest =>
          obtain ⟨bn, bs⟩ := p
          dsimp only
          constructor
          · intro nm h
            by_cases hth : t ≤ bs
            · rw [if_pos hth] at h
              rw [if_pos (le_trans hle hth)]
              exact h
            · rw [if_neg hth] at h
              cases h
          · intro sugg h
            by_cases hth' : t' ≤ bs
            · rw [if_pos hth'] at h
              cases h
            · rw [if_neg hth'] at h
              rw [if_neg (fun hth => hth' (le_trans hle hth))]
              exact h

/-- C6: for a fixed input, catalog and embedding, lowering the threshold
preserves a `Matched` result unchanged, and raising it preserves an
`Unmatched` result unchanged. -/
theorem threshold_monotonicity (emb : Option EmbeddingService)
    (sl : Option (List String)) (t t' : ℚ) (hle : t' ≤ t) (input : String) :
    (∀ nm, (init emb sl t).match_item input = .matched nm →
       (init emb sl t').match_item input = .matched nm) ∧
    (∀ sugg, (init emb sl t').match_item input = .unmatched sugg →
       (init emb sl t).match_item input = .unmatched sugg) :=
  match_item_threshold_mono (init emb sl t).embedding
    (init emb sl t).canonical_names t t' hle input

/-- Witness for `threshold_monotonicity`. -/
theorem threshold_monotonicity_holds :
    (init none none 0).match_item "onion" = .matched "Onion, fresh" :=
  (threshold_monotonicity none none 1 0 (by decide) "onion").1 "Onion, fresh" (by decide)

end MatchingService

/-! ### Stability of the suggestion ranking (claim C7) -/

/-- The ranking the spec ascribes to the lexical fallback, made explicit on
index-tagged score pairs: strictly higher overlap first, ties by smaller
catalog index (insertion order). -/
def sugOrderIdx : (ℕ × String × ℕ) → (ℕ × String × ℕ) → Prop :=
  fun a b => b.2.2 < a.2.2 ∨ (a.2.2 = b.2.2 ∧ a.1 ≤ b.1)

instance : DecidableRel sugOrderIdx :=
  fun a b => inferInstanceAs (Decidable (b.2.2 < a.2.2 ∨ (a.2.2 = b.2.2 ∧ a.1 ≤ b.1)))

instance : IsTotal (ℕ × String × ℕ) sugOrderIdx :=
  ⟨fun a b => by unfold sugOrderIdx; omega⟩

instance : IsTrans (ℕ × String × ℕ) sugOrderIdx :=
  ⟨fun a b c hab hbc => by unfold sugOrderIdx at hab hbc ⊢; omega⟩

theorem orderedInsert_snd_comm (x : ℕ × String × ℕ) :
    ∀ (m : List (ℕ × String × ℕ)), (∀ y ∈ m, x.1 < y.1) →
      List.orderedInsert sugOrder x.2 (m.map Prod.snd)
        = (List.orderedInsert sugOrderIdx x m).map Prod.snd := by
  intro m
  induction m with
  | nil => intro _; rfl
  | cons y ys ih =>
    intro hx
    have hxy := hx y (List.mem_cons_self _ _)
    have hiff : sugOrderIdx x y ↔ sugOrder x.2 y.2 := by
      unfold sugOrderIdx sugOrder
      omega
    simp only [List.map_cons, List.orderedInsert]
    by_cases hc : sugOrder x.2 y.2
    · rw [if_pos hc, if_pos (hiff.2 hc)]
      rfl
    · rw [if_neg hc, if_neg (fun hxy2 => hc (hiff.1 hxy2))]
      simp only [List.map_cons]
      rw [ih (fun z hz => hx z (List.mem_cons_of_mem _ hz))]

/-- Python's stable sort of score pairs coincides with the sort of
index-tagged pairs under the explicit "descending score, ties by insertion
index" ordering, whenever the tags are strictly increasing. -/
theorem insertionSort_snd_stable :
    ∀ (l : List (ℕ × String × ℕ)), l.Pairwise (fun a b => a.1 < b.1) →
      List.insertionSort sugOrder (l.map Prod.snd)
        = (List.insertionSort sugOrderIdx l).map Prod.snd := by
  intro l
  induction l with
  | nil => intro _; rfl
  | cons x xs ih =>
    intro hp
    simp only [List.map_cons, List.insertionSort]
    rw [ih (List.pairwise_cons.1 hp).2]
    exact orderedInsert_snd_comm x _
      (fun y hy => (List.pairwise_cons.1 hp).1 y ((List.mem_insertionSort _).1 hy))

theorem enum_pairwise_fst_lt {β : Type} (l : List β) :
    l.enum.Pairwise (fun a b => a.1 < b.1) := by
  have h := List.pairwise_lt_range l.length
  rw [← List.enum_map_fst l] at h
  exact List.pairwise_map.1 h

namespace MatchingService

/-- C7: with a non-empty catalog, the lexical fallback is the first `top_n`
names of the stable descending sort by token overlap: the sort is exactly
the sort by (score descending, catalog index ascending); when every overlap
is zero the result is the first `top_n` catalog names in insertion order; the
result is never empty; and with no embedding index configured (and no
override firing) `match_item` returns exactly these suggestions. -/
theorem lexical_fallback_ranking (m : MatchingService) (q : String) (n : Nat)
    (hn : 1 ≤ n) (hne : m.canonical_names ≠ []) :
    (m.suggestions q n =
       (((m.canonical_names.map fun name => (name, overlapScore name q)).insertionSort
           sugOrder).take n).map Prod.fst) ∧
    ((m.canonical_names.map fun name => (name, overlapScore name q)).insertionSort sugOrder
       = ((m.canonical_names.map fun name => (name, overlapScore name q)).enum.insertionSort
           sugOrderIdx).map Prod.snd) ∧
    List.Sorted sugOrderIdx
      ((m.canonical_names.map fun name => (name, overlapScore name q)).enum.insertionSort
        sugOrderIdx) ∧
    ((∀ nm ∈ m.canonical_names, overlapScore nm q = 0) →
       m.suggestions q n = m.canonical_names.take n) ∧
    m.suggestions q n ≠ [] ∧
    (m.suggestions q n).length ≤ n ∧
    (∀ input, m.embedding = none →
       confident_rules (normalize input) (expandedOf input) = none →
       m.match_item input = .unmatched (m.suggestions (expandedOf input) 3)) := by
  have hs : (m.canonical_names.map fun name => (name, overlapScore name q)) ≠ [] := by
    simpa using hne
  have hsortne :
      (m.canonical_names.map fun name => (name, overlapScore name q)).insertionSort sugOrder
        ≠ [] := by
    intro hEq
    exact hs (((List.perm_insertionSort sugOrder _).symm.trans (hEq ▸ List.Perm.refl _)).eq_nil)
  have htakene :
      (((m.canonical_names.map fun name => (name, overlapScore name q)).insertionSort
          sugOrder).take n) ≠ [] := by
    intro hEq
    rcases List.take_eq_nil_iff.1 hEq with h | h
    · omega
    · exact hsortne h
  have hresne :
      ((((m.canonical_names.map fun name => (name, overlapScore name q)).insertionSort
          sugOrder).take n).map Prod.fst) ≠ [] := by
    simpa using htakene
  have heq1 : m.suggestions q n =
      (((m.canonical_names.map fun name => (name, overlapScore name q)).insertionSort
          sugOrder).take n).map Prod.fst := by
    simp only [suggestions]
    rw [if_neg (fun hc => hresne (List.isEmpty_iff.1 hc))]
  refine ⟨heq1, ?_, List.sorted_insertionSort sugOrderIdx _, ?_, ?_, ?_, ?_⟩
  · have hstab := insertionSort_snd_stable
      ((m.canonical_names.map fun name => (name, overlapScore name q)).enum)
      (enum_pairwise_fst_lt _)
    rwa [List.enum_map_snd] at hstab
  · intro h0
    have hsorted :
        List.Sorted sugOrder (m.canonical_names.map fun name => (name, overlapScore name q)) := by
      apply List.pairwise_of_forall_mem_list
      intro a ha b hb
      rcases List.mem_map.1 ha with ⟨na, hna, rfl⟩
      rcases List.mem_map.1 hb with ⟨nb, hnb, rfl⟩
      unfold sugOrder
      simp [h0 na hna, h0 nb hnb]
    rw [heq1, List.Sorted.insertionSort_eq hsorted, List.map_take, map_fst_scorePairs]
  · rw [heq1]; exact hresne
  · rw [heq1]
    simp only [List.length_map]
    exact List.length_take_le _ _
  · intro input hembNone hcr
    unfold match_item
    simp only [hcr, hembNone]

end MatchingService

/-- Witness for `lexical_fallback_ranking` on a concrete catalog with an
all-zero-overlap query. -/
theorem lexical_fallback_ranking_holds :
    (MatchingService.init none (some ["Milk", "Bread"]) 1).suggestions "zzz" 3
      = ["Milk", "Bread"] ∧
    (MatchingService.init none (some ["Milk", "Bread"]) 1).suggestions "zzz" 3 ≠ [] := by
  have hlf := MatchingService.lexical_fallback_ranking
    (MatchingService.init none (some ["Milk", "Bread"]) 1) "zzz" 3 (by decide) (by decide)
  refine ⟨?_, hlf.2.2.2.2.1⟩
  rw [hlf.2.2.2.1 (by decide)]
  decide

/-! ### Whitespace canonicity, towards claim C3 -/

/-- The first character, if any, is not whitespace. -/
def noLeadWs : List Char → Bool
  | [] => true
  | c :: _ => !isSpaceC c

/-- The last character, if any, is not whitespace. -/
def noTrailWs : List Char → Bool
  | [] => true
  | [c] => !isSpaceC c
  | _ :: c :: cs => noTrailWs (c :: cs)

/-- Canonical whitespace: every whitespace character is a single `' '`
immediately followed by a non-whitespace character (so in particular there
is no trailing whitespace and no run of two). -/
def wsCanon : List Char → Prop
  | [] => True
  | c :: cs =>
    (isSpaceC c = true → c = ' ' ∧ ∃ d ds, cs = d :: ds ∧ isSpaceC d = false) ∧ wsCanon cs

theorem collapseWsGo_true (s : List Char) :
    collapseWsGo true s = collapseWsGo false (s.dropWhile isSpaceC) := by
  induction s with
  | nil => rfl
  | cons c cs ih =>
    cases hsp : isSpaceC c with
    | true =>
      rw [List.dropWhile_cons, if_pos hsp]
      simp only [collapseWsGo, hsp, if_true]
      exact ih
    | false =>
      rw [List.dropWhile_cons, if_neg (by simp [hsp])]
      simp only [collapseWsGo, hsp]
      simp

theorem noTrailWs_cons (c : Char) (cs : List Char) (hcs : cs ≠ []) :
    noTrailWs (c :: cs) = noTrailWs cs := by
  cases cs with
  | nil => exact absurd rfl hcs
  | cons d ds => rfl

theorem noTrailWs_of_cons {c : Char} {cs : List Char} (h : noTrailWs (c :: cs) = true) :
    noTrailWs cs = true := by
  cases cs with
  | nil => rfl
  | cons d ds => rw [← noTrailWs_cons c (d :: ds) (by simp)]; exact h

theorem noTrailWs_dropWhile (s : List Char) (h : noTrailWs s = true) :
    noTrailWs (s.dropWhile isSpaceC) = true := by
  induction s with
  | nil => exact h
  | cons c cs ih =>
    cases hsp : isSpaceC c with
    | true =>
      rw [List.dropWhile_cons, if_pos hsp]
      exact ih (noTrailWs_of_cons h)
    | false =>
      rw [List.dropWhile_cons, if_neg (by simp [hsp])]
      exact h

theorem dropWhile_ne_nil_of_noTrailWs :
    ∀ (s : List Char), s ≠ [] → noTrailWs s = true → s.dropWhile isSpaceC ≠ [] := by
  intro s
  induction s with
  | nil => intro h _; exact absurd rfl h
  | cons c cs ih =>
    intro _ h
    cases hsp : isSpaceC c with
    | false =>
      rw [List.dropWhile_cons, if_neg (by simp [hsp])]
      simp
    | true =>
      rw [List.dropWhile_cons, if_pos hsp]
      cases cs with
      | nil => simp [noTrailWs, hsp] at h
      | cons d ds => exact ih (by simp) (noTrailWs_of_cons h)

theorem dropWhile_head_not_space :
    ∀ (s : List Char) {d : Char} {ds : List Char},
      s.dropWhile isSpaceC = d :: ds → isSpaceC d = false := by
  intro s
  induction s with
  | nil => intro d ds h; cases h
  | cons c cs ih =>
    intro d ds h
    cases hsp : isSpaceC c with
    | true =>
      rw [List.dropWhile_cons, if_pos hsp] at h
      exact ih h
    | false =>
      rw [List.dropWhile_cons, if_neg (by simp [hsp])] at h
      injection h with h1 h2
      rw [← h1]
      exact hsp

theorem noLeadWs_dropWhile (s : List Char) : noLeadWs (s.dropWhile isSpaceC) = true := by
  cases hd : s.dropWhile isSpaceC with
  | nil => rfl
  | cons d ds =>
    have := dropWhile_head_not_space s hd
    simp [noLeadWs, this]

theorem noLeadWs_append (xs ys : List Char) (h : xs ≠ []) :
    noLeadWs (xs ++ ys) = noLeadWs xs := by
  cases xs with
  | nil => exact absurd rfl h
  | cons a as => rfl

theorem noTrailWs_eq_noLead_reverse : ∀ (l : List Char), noTrailWs l = noLeadWs l.reverse := by
  intro l
  induction l with
  | nil => rfl
  | cons c cs ih =>
    cases cs with
    | nil => rfl
    | cons d ds =>
      rw [noTrailWs_cons c (d :: ds) (by simp), List.reverse_cons,
        noLeadWs_append _ _ (by simp), ← ih]

theorem wsCanon_collapseWsGo :
    ∀ (N : Nat) (s : List Char), s.length ≤ N → noTrailWs s = true →
      wsCanon (collapseWsGo false s) := by
  intro N
  induction N with
  | zero =>
    intro s hs _
    have hnil : s = [] := List.length_eq_zero.1 (Nat.le_zero.1 hs)
    subst hnil
    exact trivial
  | succ N ih =>
    intro s hs h
    cases s with
    | nil => exact trivial
    | cons c cs =>
      cases hsp : isSpaceC c with
      | false =>
        have hred : collapseWsGo false (c :: cs) = c :: collapseWsGo false cs := by
          simp [collapseWsGo, hsp]
        rw [hred]
        refine ⟨fun habs => ?_, ?_⟩
        · rw [hsp] at habs; cases habs
        · exact ih cs (by simp only [List.length_cons] at hs; omega)
            (noTrailWs_of_cons h)
      | true =>
        cases cs with
        | nil => simp [noTrailWs, hsp] at h
        | cons d ds =>
          have hne : (d :: ds) ≠ [] := by simp
          have hnt : noTrailWs (d :: ds) = true := noTrailWs_of_cons h
          have hcs'ne := dropWhile_ne_nil_of_noTrailWs (d :: ds) hne hnt
          obtain ⟨e, es, hcs'⟩ := List.exists_cons_of_ne_nil hcs'ne
          have hnsp : isSpaceC e = false := dropWhile_head_not_space (d :: ds) hcs'
          have hred : collapseWsGo false (c :: d :: ds)
              = ' ' :: collapseWsGo false ((d :: ds).dropWhile isSpaceC) := by
            rw [show collapseWsGo false (c :: d :: ds)
                = ' ' :: collapseWsGo true (d :: ds) from by simp [collapseWsGo, hsp],
              collapseWsGo_true]
          rw [hred]
          have hlen : ((d :: ds).dropWhile isSpaceC).length ≤ N := by
            have h1 := (List.dropWhile_sublist (l := d :: ds) isSpaceC).length_le
            have h2 : (c :: d :: ds).length ≤ N + 1 := hs
            simp only [List.length_cons] at h1 h2 ⊢
            omega
          have hX : wsCanon (collapseWsGo false ((d :: ds).dropWhile isSpaceC)) :=
            ih _ hlen (noTrailWs_dropWhile _ hnt)
          have hXhead : collapseWsGo false ((d :: ds).dropWhile isSpaceC)
              = e :: collapseWsGo false es := by
            rw [hcs']
            simp [collapseWsGo, hnsp]
          refine ⟨fun _ => ⟨rfl, e, collapseWsGo false es, hXhead, hnsp⟩, hX⟩

theorem collapseWsGo_id : ∀ (s : List Char), wsCanon s → collapseWsGo false s = s := by
  intro s
  induction s with
  | nil => intro _; rfl
  | cons c cs ih =>
    intro h
    obtain ⟨h1, h2⟩ := h
    cases hsp : isSpaceC c with
    | false =>
      have hred : collapseWsGo false (c :: cs) = c :: collapseWsGo false cs := by
        simp [collapseWsGo, hsp]
      rw [hred, ih h2]
    | true =>
      obtain ⟨hc, d, ds, hcs, hd⟩ := h1 hsp
      subst hcs
      subst hc
      have hred : collapseWsGo false (' ' :: d :: ds)
          = ' ' :: collapseWsGo false ((d :: ds).dropWhile isSpaceC) := by
        rw [show collapseWsGo false (' ' :: d :: ds)
            = ' ' :: collapseWsGo true (d :: ds) from by simp [collapseWsGo, isSpaceC],
          collapseWsGo_true]
      rw [hred, List.dropWhile_cons, if_neg (by simp [hd]), ih h2]

theorem noLeadWs_collapseWsGo (s : List Char) (h : noLeadWs s = true) :
    noLeadWs (collapseWsGo false s) = true := by
  cases s with
  | nil => rfl
  | cons c cs =>
    have hsp : isSpaceC c = false := by
      cases hq : isSpaceC c with
      | false => rfl
      | true => rw [noLeadWs, hq] at h; cases h
    have hred : collapseWsGo false (c :: cs) = c :: collapseWsGo false cs := by
      simp [collapseWsGo, hsp]
    rw [hred, noLeadWs, hsp]
    rfl

theorem noTrailWs_of_wsCanon : ∀ (s : List Char), wsCanon s → noTrailWs s = true := by
  intro s
  induction s with
  | nil => intro _; rfl
  | cons c cs ih =>
    intro h
    obtain ⟨h1, h2⟩ := h
    cases cs with
    | nil =>
      cases hsp : isSpaceC c with
      | false => simp [noTrailWs, hsp]
      | true => obtain ⟨_, d, ds, hcs, _⟩ := h1 hsp; cases hcs
    | cons d ds =>
      rw [noTrailWs_cons c (d :: ds) (by simp)]
      exact ih h2

theorem dropWhile_id_of_noLead (s : List Char) (h : noLeadWs s = true) :
    s.dropWhile isSpaceC = s := by
  cases s with
  | nil => rfl
  | cons c cs =>
    have hsp : isSpaceC c = false := by
      cases hq : isSpaceC c with
      | false => rfl
      | true => rw [noLeadWs, hq] at h; cases h
    rw [List.dropWhile_cons, if_neg (by simp [hsp])]

theorem noLeadWs_stripL (s : List Char) :
    noLeadWs (stripL s) = true ∧ noTrailWs (stripL s) = true := by
  unfold stripL
  constructor
  · rw [← noTrailWs_eq_noLead_reverse]
    apply noTrailWs_dropWhile
    rw [noTrailWs_eq_noLead_reverse, List.reverse_reverse]
    exact noLeadWs_dropWhile _
  · rw [noTrailWs_eq_noLead_reverse, List.reverse_reverse]
    exact noLeadWs_dropWhile _

theorem stripL_id (s : List Char) (h1 : noLeadWs s = true) (h2 : noTrailWs s = true) :
    stripL s = s := by
  unfold stripL
  rw [dropWhile_id_of_noLead s h1,
    dropWhile_id_of_noLead s.reverse (by rw [← noTrailWs_eq_noLead_reverse]; exact h2)]
  exact List.reverse_reverse s

/-! ### Digit-free strings are untouched by the two digit-anchored rules -/

theorem takeWhile_digit_nil (s : List Char) (h : ∀ c ∈ s, c.isDigit = false) :
    s.takeWhile (·.isDigit) = [] := by
  cases s with
  | nil => rfl
  | cons c cs =>
    rw [List.takeWhile_cons, if_neg]
    simp [h c (List.mem_cons_self _ _)]

theorem tryUnitMatch_none (b : Bool) (s : List Char) (h : ∀ c ∈ s, c.isDigit = false) :
    tryUnitMatch b s = none := by
  unfold tryUnitMatch
  cases b with
  | true => rfl
  | false =>
    simp only [Bool.false_eq_true, if_false]
    rw [takeWhile_digit_nil s h]
    rfl

theorem subUnitsGo_id : ∀ (fuel : Nat) (b : Bool) (s : List Char),
    (∀ c ∈ s, c.isDigit = false) → subUnitsGo fuel b s = s := by
  intro fuel
  induction fuel with
  | zero => intro b s _; rfl
  | succ n ih =>
    intro b s h
    cases s with
    | nil => rfl
    | cons c cs =>
      rw [subUnitsGo, tryUnitMatch_none b (c :: cs) h]
      rw [ih (isWordC c) cs (fun x hx => h x (List.mem_cons_of_mem _ hx))]

theorem subUnits_id (s : List Char) (h : ∀ c ∈ s, c.isDigit = false) : subUnits s = s :=
  subUnitsGo_id s.length false s h

theorem mem_dropDollar {c : Char} {s : List Char} (hc : c ∈ dropDollar s) : c ∈ s := by
  unfold dropDollar at hc
  split at hc
  · exact List.mem_cons_of_mem _ hc
  · exact hc

theorem matchPriceSuffix_false (s : List Char) (h : ∀ c ∈ s, c.isDigit = false) :
    matchPriceSuffix s = false := by
  unfold matchPriceSuffix
  dsimp only
  rw [takeWhile_digit_nil (dropDollar s) (fun c hc => h c (mem_dropDollar hc))]
  rfl

theorem subPrice_id : ∀ (s : List Char), (∀ c ∈ s, c.isDigit = false) → subPrice s = s := by
  intro s
  induction s with
  | nil => intro _; rfl
  | cons c cs ih =>
    intro h
    rw [subPrice, matchPriceSuffix_false (c :: cs) h]
    simp only [Bool.false_eq_true, if_false]
    rw [ih (fun x hx => h x (List.mem_cons_of_mem _ hx))]

/-! ### Claim C3: idempotence of the normalizer -/

theorem normalizeL_canonical (s : List Char) :
    noLeadWs (normalizeL s) = true ∧ wsCanon (normalizeL s) := by
  unfold normalizeL collapseWs
  exact ⟨noLeadWs_collapseWsGo _ (noLeadWs_stripL _).1,
    wsCanon_collapseWsGo (stripL (subPrice (subUnits (stripL s)))).length _ le_rfl
      (noLeadWs_stripL _).2⟩

/-- C3 counterexample: `normalize` is not idempotent.  On `"12 34"` the
trailing-price rule removes `"34"`, and a second application removes the
newly trailing `"12"` as well. -/
theorem normalize_not_idempotent :
    MatchingService.normalize (MatchingService.normalize "12 34")
      ≠ MatchingService.normalize "12 34" := by
  decide

/-- C3 amended: `normalize` is idempotent on every input whose normalized
form contains no digit (the two digit-anchored removal rules then match
nothing, and the whitespace handling is already canonical after one pass). -/
theorem normalize_idem_of_digit_free (x : String)
    (h : (MatchingService.normalize x).data.all (fun c => !c.isDigit) = true) :
    MatchingService.normalize (MatchingService.normalize x)
      = MatchingService.normalize x := by
  have hnd : ∀ c ∈ normalizeL x.data, c.isDigit = false := by
    intro c hc
    have := List.all_eq_true.1 h c hc
    simpa using this
  have hlead : noLeadWs (normalizeL x.data) = true := (normalizeL_canonical x.data).1
  have hws : wsCanon (normalizeL x.data) := (normalizeL_canonical x.data).2
  have htrail : noTrailWs (normalizeL x.data) = true := noTrailWs_of_wsCanon _ hws
  have hstep : normalizeL (normalizeL x.data) = normalizeL x.data := by
    show collapseWs (stripL (subPrice (subUnits (stripL (normalizeL x.data)))))
      = normalizeL x.data
    rw [stripL_id _ hlead htrail, subUnits_id _ hnd, subPrice_id _ hnd,
      stripL_id _ hlead htrail]
    exact collapseWsGo_id _ hws
  show (⟨normalizeL (normalizeL x.data)⟩ : String) = ⟨normalizeL x.data⟩
  exact congrArg String.mk hstep

/-- Witness for `normalize_idem_of_digit_free`. -/
theorem normalize_idem_of_digit_free_holds :
    MatchingService.normalize (MatchingService.normalize "YELLOW ONION 3LB")
      = MatchingService.normalize "YELLOW ONION 3LB" :=
  normalize_idem_of_digit_free "YELLOW ONION 3LB" (by decide)
